import Mathlib

/-!
Verification development for the nameforge nickname-generation core.

The definitions below are a shallow embedding of the Python sources

  * src/generator/nickname_generator.py  (class NicknameGenerator)
  * src/tags/tag_manager.py              (class TagManager)

Python dictionaries become association lists or explicit records, Python
strings become Lean `String` (`String.length` counts code points, exactly
like Python `len` on `str`), and the configuration dictionaries read
through ConfigManager become explicit parameters, since configuration
loading is an external collaborator of the core.
-/

/-- A normalized word root: the shape produced by Root Store normalization,
a record with a `word` string and a `tags` list
(`roots: Dict[str, List[Dict]]` with entries `\x7b"word": ..., "tags": [...]\x7d`). -/
structure WordRoot where
  word : String
  tags : List String
deriving DecidableEq, Repr

/-- The roots mapping `Dict[str, List[Dict]]`: category name to its list of
word roots.  A Python dict has unique keys; an association list with
first-match lookup models it. -/
abbrev RootsMap := List (String × List WordRoot)

/-- Per-style length configuration (`style_config.get("length_min", 2)` and
`style_config.get("length_max", 6)`), values already defaulted.  Python
config values are ints, hence `Int`. -/
structure StyleConfig where
  length_min : Int
  length_max : Int
deriving DecidableEq, Repr

/-- Per-style filter configuration (`filters_config.get("forbid_duplicate_chars", True)`
and `filters_config.get("forbidden_combinations", [])`), values already defaulted. -/
structure StyleFilters where
  forbid_duplicate_chars : Bool
  forbidden_combinations : List (List String)
deriving DecidableEq, Repr

/-- Per-style tag configuration as returned by
`ConfigManager.get_style_tags`: the `available` tag list and the
`conflicts` rule list. -/
structure TagConfig where
  available : List String
  conflicts : List (List String)
deriving DecidableEq, Repr

/-!
Placeholder scanning.

`_apply_template` parses the template with
`re.findall(pattern, template)` where the pattern recognizes
a literal open brace, a nonempty run of word characters (group 1),
optionally a colon followed by a nonempty run of word characters
(group 2), and a literal close brace.  Python's word-character class is
ASCII alphanumerics plus underscore plus non-ASCII word characters
(e.g. CJK); the approximation below treats every code point at or above
0x80 as a word character, which agrees with Python on all identifiers and
CJK tags used by this repository.
-/

/-- Word character class of Python's regex `\w` (see the comment above). -/
def isWordChar (c : Char) : Bool :=
  c.isAlphanum || c = '_' || decide (0x80 ≤ c.toNat)

/-- Split a character list into its maximal leading run of word characters
and the remainder (the greedy `\w+` match). -/
def takeWordRun : List Char → List Char × List Char
  | [] => ([], [])
  | c :: cs =>
    if isWordChar c then (c :: (takeWordRun cs).1, (takeWordRun cs).2)
    else ([], c :: cs)

/-- Attempt to match the placeholder body directly after an open brace:
a word run, an optional colon-separated word run, and a close brace.
Returns the category, the optional tag constraint, and the characters
after the close brace. -/
def parseAfterBrace (cs : List Char) : Option (String × Option String × List Char) :=
  if (takeWordRun cs).1.isEmpty then none
  else
    match (takeWordRun cs).2 with
    | '\x7d' :: rest2 => some (String.mk (takeWordRun cs).1, none, rest2)
    | ':' :: rest2 =>
      if (takeWordRun rest2).1.isEmpty then none
      else
        match (takeWordRun rest2).2 with
        | '\x7d' :: rest4 =>
          some (String.mk (takeWordRun cs).1, some (String.mk (takeWordRun rest2).1), rest4)
        | _ => none
    | _ => none

/-- Fueled scanner for `re.findall`: non-overlapping leftmost matches,
continuing after each match, advancing one character when no match starts
at the current position.  The fuel only bounds recursion depth; since each
step consumes at least one character, fuel equal to the input length gives
the exact scan (`findPlaceholdersAux_fuel` below). -/
def findPlaceholdersAux : Nat → List Char → List (String × Option String)
  | 0, _ => []
  | _ + 1, [] => []
  | fuel + 1, c :: cs =>
    if c = '\x7b' then
      match parseAfterBrace cs with
      | some (cat, con, rest) => (cat, con) :: findPlaceholdersAux fuel rest
      | none => findPlaceholdersAux fuel cs
    else findPlaceholdersAux fuel cs

/-- All placeholder matches of the template, in order: category name with
optional tag constraint.  Models `re.findall(pattern, template)` where
group 2 yields the empty string (falsy) when absent. -/
def findPlaceholders (t : String) : List (String × Option String) :=
  findPlaceholdersAux t.data.length t.data

theorem takeWordRun_snd_length (cs : List Char) : (takeWordRun cs).2.length ≤ cs.length := by
  induction cs with
  | nil => simp [takeWordRun]
  | cons c cs ih =>
    simp only [takeWordRun]
    split
    · exact Nat.le_succ_of_le ih
    · simp

theorem parseAfterBrace_length (cs : List Char) (cat : String) (con : Option String)
    (rest : List Char) (h : parseAfterBrace cs = some (cat, con, rest)) :
    rest.length < cs.length := by
  unfold parseAfterBrace at h
  split at h
  · exact absurd h (by simp)
  · split at h
    · have h2 := takeWordRun_snd_length cs
      rename_i heq
      rw [heq] at h2
      simp only [Option.some.injEq, Prod.mk.injEq] at h
      obtain ⟨-, -, hrest⟩ := h
      subst hrest
      simp only [List.length_cons] at h2
      omega
    · rename_i rest2 heq
      split at h
      · exact absurd h (by simp)
      · have h2 := takeWordRun_snd_length cs
        rw [heq] at h2
        simp only [List.length_cons] at h2
        split at h
        · rename_i rest4 heq4
          have h4 := takeWordRun_snd_length rest2
          rw [heq4] at h4
          simp only [List.length_cons] at h4
          simp only [Option.some.injEq, Prod.mk.injEq] at h
          obtain ⟨-, -, hrest⟩ := h
          subst hrest
          omega
        · exact absurd h (by simp)
    · exact absurd h (by simp)

/-- The scanner is fuel-irrelevant once the fuel covers the input length,
so `findPlaceholders` is the exact (unbounded) scan. -/
theorem findPlaceholdersAux_fuel (fuel fuel' : Nat) (cs : List Char)
    (h : cs.length ≤ fuel) (h' : cs.length ≤ fuel') :
    findPlaceholdersAux fuel cs = findPlaceholdersAux fuel' cs := by
  induction fuel generalizing fuel' cs with
  | zero =>
    have hnil : cs = [] := List.length_eq_zero.mp (Nat.le_zero.mp h)
    subst hnil
    cases fuel' <;> simp [findPlaceholdersAux]
  | succ fuel ih =>
    cases cs with
    | nil => cases fuel' <;> simp [findPlaceholdersAux]
    | cons c cs =>
      cases fuel' with
      | zero => exact absurd h' (by simp)
      | succ fuel' =>
        simp only [List.length_cons, Nat.succ_le_succ_iff] at h h'
        simp only [findPlaceholdersAux]
        split
        · split
          · rename_i cat con rest heq
            have hlt := parseAfterBrace_length cs cat con rest heq
            rw [ih fuel' rest (by omega) (by omega)]
          · rw [ih fuel' cs h h']
        · rw [ih fuel' cs h h']

/-!
Replace-all substitution: Python `str.replace(old, new)` replaces every
non-overlapping occurrence of `old`, scanning left to right.  The patterns
used by `_apply_template` are always nonempty (they start with a brace),
so the empty-pattern corner of Python `replace` is irrelevant; the model
leaves the string unchanged for an empty pattern.
-/

/-- Fueled replace-all kernel.  Each step consumes at least one input
character, so fuel equal to the input length gives the exact scan
(`replaceAllAux_fuel` below). -/
def replaceAllAux : Nat → List Char → List Char → List Char → List Char
  | 0, _, _, s => s
  | _ + 1, _, _, [] => []
  | fuel + 1, pat, repl, c :: cs =>
    if pat.isPrefixOf (c :: cs) && !pat.isEmpty then
      repl ++ replaceAllAux fuel pat repl (List.drop (pat.length - 1) cs)
    else
      c :: replaceAllAux fuel pat repl cs

/-- Model of Python `s.replace(pat, repl)`. -/
def pyReplace (s pat repl : String) : String :=
  String.mk (replaceAllAux s.data.length pat.data repl.data s.data)

/-- The replace-all kernel is fuel-irrelevant once the fuel covers the
input length. -/
theorem replaceAllAux_fuel (fuel fuel' : Nat) (pat repl s : List Char)
    (h : s.length ≤ fuel) (h' : s.length ≤ fuel') :
    replaceAllAux fuel pat repl s = replaceAllAux fuel' pat repl s := by
  induction fuel generalizing fuel' s with
  | zero =>
    have hnil : s = [] := List.length_eq_zero.mp (Nat.le_zero.mp h)
    subst hnil
    cases fuel' <;> simp [replaceAllAux]
  | succ fuel ih =>
    cases s with
    | nil => cases fuel' <;> simp [replaceAllAux]
    | cons c cs =>
      cases fuel' with
      | zero => exact absurd h' (by simp)
      | succ fuel' =>
        simp only [List.length_cons, Nat.succ_le_succ_iff] at h h'
        simp only [replaceAllAux]
        split
        · rw [ih fuel' (List.drop (pat.length - 1) cs)
            (by simpa using Nat.le_trans (Nat.sub_le _ _) h)
            (by simpa using Nat.le_trans (Nat.sub_le _ _) h')]
        · rw [ih fuel' cs h h']

/-!
Cartesian product: `itertools.product(*root_lists)` enumerates tuples with
the leftmost list varying slowest, exactly the nested-loop order below.
-/

/-- N-ary Cartesian product of lists, in `itertools.product` order. -/
def cartesianProduct {α : Type} : List (List α) → List (List α)
  | [] => [[]]
  | l :: ls => l.flatMap (fun x => (cartesianProduct ls).map (fun combo => x :: combo))

theorem flatMap_length_const {α β : Type} (l : List α) (f : α → List β) (n : Nat)
    (hf : ∀ x, (f x).length = n) : (l.flatMap f).length = l.length * n := by
  induction l with
  | nil => simp
  | cons x l ih => simp [List.flatMap_cons, hf, ih, Nat.succ_mul, Nat.add_comm]

/-- The product has as many members as the product of the list lengths. -/
theorem cartesianProduct_length {α : Type} (ls : List (List α)) :
    (cartesianProduct ls).length = (ls.map List.length).prod := by
  induction ls with
  | nil => simp [cartesianProduct]
  | cons l ls ih =>
    simp only [cartesianProduct, List.map_cons, List.prod_cons]
    rw [flatMap_length_const l _ (cartesianProduct ls).length (fun x => by simp), ih]

/-!
The template engine: `NicknameGenerator._apply_template`
(src/generator/nickname_generator.py lines 130-217).
-/

/-- The `constraints` dictionary built by the loop
`for category, tag_constraint in the match list: if tag_constraint: constraints[category] = tag_constraint`.
Later assignments overwrite earlier ones, so the recursion gives priority
to the tail of the match list. -/
def constraintFor : List (String × Option String) → String → Option String
  | [], _ => none
  | m :: ms, c =>
    match constraintFor ms c with
    | some t => some t
    | none =>
      match m.2 with
      | some t => if m.1 = c then some t else none
      | none => none

/-- The per-category list `filtered_roots[category]`: the category's root
list, filtered to the roots containing the constraint tag when the
category has an entry in the `constraints` dictionary. -/
def filteredRootsFor (roots : RootsMap) (ms : List (String × Option String))
    (c : String) : List WordRoot :=
  match constraintFor ms c with
  | some t => ((List.lookup c roots).getD []).filter (fun r => decide (t ∈ r.tags))
  | none => (List.lookup c roots).getD []

/-- The literal placeholder text that the substitution step replaces:
the category in braces, with the constraint tag after a colon when the
category is constrained. -/
def placeholderText (ms : List (String × Option String)) (c : String) : String :=
  match constraintFor ms c with
  | some t => "\x7b" ++ c ++ ":" ++ t ++ "\x7d"
  | none => "\x7b" ++ c ++ "\x7d"

/-- One product member turned into a name: starting from the template,
each (category, chosen root) pair replaces every occurrence of its
placeholder text with the chosen word, exactly the
`name = name.replace(..., word)` loop. -/
def substituteCombo (template : String) (ms : List (String × Option String))
    (pairs : List (String × WordRoot)) : String :=
  pairs.foldl (fun name p => pyReplace name (placeholderText ms p.1) p.2.word) template

/-- The tag list of one product member: the concatenation of the chosen
roots' tag lists, in placeholder order (`all_tags.extend(tags)`). -/
def comboTags (combo : List WordRoot) : List String :=
  (combo.map WordRoot.tags).flatten

/-- Body of `_apply_template` after the regex scan.  Mirrors the source:
a template with no placeholders expands to itself with no tags; a missing
category fails closed to the empty list; a constrained category whose
filtered root list is empty fails closed to the empty list; otherwise the
Cartesian product of the per-occurrence root lists is substituted into the
template. -/
def applyTemplateMatches (template : String) (roots : RootsMap)
    (ms : List (String × Option String)) : List (String × List String) :=
  if ms.isEmpty then
    [(template, [])]
  else
    let categories := ms.map Prod.fst
    if categories.any (fun c => (List.lookup c roots).isNone) then
      []
    else if categories.any (fun c =>
        (constraintFor ms c).isSome && (filteredRootsFor roots ms c).isEmpty) then
      []
    else
      let rootLists := categories.map (filteredRootsFor roots ms)
      (cartesianProduct rootLists).map (fun combo =>
        (substituteCombo template ms (categories.zip combo), comboTags combo))

/-- `NicknameGenerator._apply_template`: scan the template for
placeholders, then expand. -/
def applyTemplate (template : String) (roots : RootsMap) : List (String × List String) :=
  applyTemplateMatches template roots (findPlaceholders template)

/-!
The filter chain: `NicknameGenerator._apply_filters`
(src/generator/nickname_generator.py lines 219-277) and its helper
predicates, plus the tag manager (src/tags/tag_manager.py).
-/

/-- Helper of `_has_duplicate_chars`: some two consecutive characters are
equal. -/
def adjacentDup : List Char → Bool
  | [] => false
  | [_] => false
  | c1 :: c2 :: rest => c1 == c2 || adjacentDup (c2 :: rest)

/-- `NicknameGenerator._has_duplicate_chars` (lines 309-324): scans
adjacent character pairs of the name. -/
def hasDuplicateChars (name : String) : Bool :=
  adjacentDup name.data

/-- Substring membership, Python's `needle in haystack` on strings. -/
def containsSub : List Char → List Char → Bool
  | pat, [] => pat.isEmpty
  | pat, c :: cs => pat.isPrefixOf (c :: cs) || containsSub pat cs

/-- `NicknameGenerator._is_forbidden_combination` (lines 326-344): each
forbidden list is concatenated into one string and checked as a substring
of the name. -/
def isForbiddenCombination (name : String) (forbiddenList : List (List String)) : Bool :=
  forbiddenList.any (fun forbidden => containsSub (String.join forbidden).data name.data)

/-- One conflict rule applied to a tag set: rules with fewer than two
members are ignored, otherwise the first two members must not both be
present (`if len(conflict_pair) >= 2: tag_a, tag_b = conflict_pair[0], conflict_pair[1]`). -/
def conflictViolated (tags : List String) : List String → Bool
  | a :: b :: _ => decide (a ∈ tags) && decide (b ∈ tags)
  | _ => false

/-- `NicknameGenerator._check_tag_compatibility_internal` (lines 279-307):
an empty tag list is compatible; otherwise no conflict rule may have both
members in the tag set.  The conflict rules are the configuration value
that `TagManager.get_conflicts(style_name)` reads. -/
def checkTagCompatibilityInternal (tags : List String) (conflicts : List (List String)) : Bool :=
  if tags.isEmpty then true
  else !(conflicts.any (conflictViolated tags))

/-- `TagManager.check_tag_compatibility` (src/tags/tag_manager.py lines
30-61): merges the two tag lists and applies the same conflict-rule loop. -/
def check_tag_compatibility (tags1 tags2 : List String) (conflicts : List (List String)) : Bool :=
  !(conflicts.any (conflictViolated (tags1 ++ tags2)))

/-- `TagManager.has_tag_system` (lines 116-128): the style declares a
non-empty available-tag list. -/
def hasTagSystem (tc : TagConfig) : Bool :=
  decide (0 < tc.available.length)

/-- Stage 1 of `_apply_filters`: the length check
`if not (min_len <= len(name) <= max_len): continue`. -/
def lengthStageRejects (sc : StyleConfig) (name : String) : Bool :=
  !(decide (sc.length_min ≤ (name.length : Int)) && decide ((name.length : Int) ≤ sc.length_max))

/-- Stage 2 of `_apply_filters`: the adjacent-duplicate check
`if forbid_duplicate and self._has_duplicate_chars(name): continue`. -/
def duplicateStageRejects (fc : StyleFilters) (name : String) : Bool :=
  fc.forbid_duplicate_chars && hasDuplicateChars name

/-- Stage 3 of `_apply_filters`: the forbidden-combination check. -/
def forbiddenStageRejects (fc : StyleFilters) (name : String) : Bool :=
  isForbiddenCombination name fc.forbidden_combinations

/-- Stage 4 of `_apply_filters`: the tag-compatibility check, applied only
when the style has a tag system and the candidate carries tags
(`if has_tag_system and tags`). -/
def tagStageRejects (tc : TagConfig) (cand : String × List String) : Bool :=
  hasTagSystem tc && !cand.2.isEmpty && !(checkTagCompatibilityInternal cand.2 tc.conflicts)

/-- A candidate survives `_apply_filters` iff no stage rejects it, in the
source's fixed order: length, adjacent duplicate, forbidden combination,
tag compatibility. -/
def passesFilters (sc : StyleConfig) (fc : StyleFilters) (tc : TagConfig)
    (cand : String × List String) : Bool :=
  !(lengthStageRejects sc cand.1) && !(duplicateStageRejects fc cand.1) &&
    !(forbiddenStageRejects fc cand.1) && !(tagStageRejects tc cand)

/-- `NicknameGenerator._apply_filters` (lines 219-277): keep the names of
the surviving candidates, in order, dropping tag provenance. -/
def applyFilters (cands : List (String × List String)) (sc : StyleConfig)
    (fc : StyleFilters) (tc : TagConfig) : List String :=
  (cands.filter (passesFilters sc fc tc)).map Prod.fst

/-!
Sampler and deduplicator: steps 5, 6 and 8 of `NicknameGenerator.generate`
(lines 92-109), together with the template-list fallback and the
surrounding control flow.  The draw of `random.sample` is the only
nondeterminism; it is injected as a function `pick`, and its library
precondition (the requested size must not exceed the population) is made
explicit so that a violation surfaces as the `ValueError` which
`random.sample` raises.
-/

/-- Model of `random.sample(population, k)`: returns `pick population k`
when `k` is within bounds and raises `ValueError` otherwise. -/
def pySample (pick : List String → Nat → List String)
    (population : List String) (k : Nat) : Except String (List String) :=
  if k ≤ population.length then Except.ok (pick population k)
  else Except.error "ValueError: sample larger than population"

/-- Steps 5 and 6 of `generate`: deduplicate (`list(set(...))`, modelled
by `List.dedup`; the set iteration order is unspecified in Python and no
theorem below depends on the order), then drop the names in the caller's
exclusion set when that set is non-empty (`if existing_names:`). -/
def remainingAfterExclude (names exclude : List String) : List String :=
  if exclude.isEmpty then names.dedup
  else names.dedup.filter (fun n => decide (n ∉ exclude))

/-- Steps 5, 6 and 8 of `generate`: after deduplication and exclusion,
return everything when the supply does not exceed `count`, and sample
exactly `count` names otherwise. -/
def finalize (pick : List String → Nat → List String) (names : List String)
    (exclude : List String) (count : Nat) : Except String (List String) :=
  let remaining := remainingAfterExclude names exclude
  if remaining.length ≤ count then Except.ok remaining
  else pySample pick remaining count

/-- `NicknameGenerator._get_templates` (lines 111-128): fall back to the
default template when the configured list is empty (or missing, which the
configuration layer reports as an empty/falsy value). -/
def getTemplates (configured : List String) : List String :=
  if configured.isEmpty then ["\x7bA\x7d\x7bB\x7d"] else configured

/-- Steps 2-8 of `NicknameGenerator.generate` (lines 71-109): expand every
template, concatenate the candidates, filter, then finalize. -/
def generateCore (pick : List String → Nat → List String) (templates : List String)
    (roots : RootsMap) (sc : StyleConfig) (fc : StyleFilters) (tc : TagConfig)
    (count : Nat) (existing : List String) : Except String (List String) :=
  let allCandidates := (templates.map (fun t => applyTemplate t roots)).flatten
  let filtered := applyFilters allCandidates sc fc tc
  finalize pick filtered existing count

/-- `NicknameGenerator.generate` (lines 34-109): the early return for an
empty template list, then the main pipeline. -/
def generate (pick : List String → Nat → List String) (templates : List String)
    (roots : RootsMap) (sc : StyleConfig) (fc : StyleFilters) (tc : TagConfig)
    (count : Nat) (existing : List String) : Except String (List String) :=
  if templates.isEmpty then Except.ok []
  else generateCore pick templates roots sc fc tc count existing

/-!
`NicknameGenerator.estimate_combinations` (lines 346-382).
-/

/-- The per-template counting loop of `estimate_combinations`: multiply
the category sizes, stopping with zero at the first missing category. -/
def estimateLoop (roots : RootsMap) : List String → Nat → Nat
  | [], total => total
  | c :: cs, total =>
    match List.lookup c roots with
    | some l => estimateLoop roots cs (total * l.length)
    | none => 0

/-- The estimate `estimate_combinations` computes for one template: its
regex uses the same pattern as `_apply_template` with the tag constraint
in a non-capturing group, so the categories are the first components of
the same match list; a placeholder-free template counts as one. -/
def estimateTemplate (template : String) (roots : RootsMap) : Nat :=
  let categories := (findPlaceholders template).map Prod.fst
  if categories.isEmpty then 1
  else estimateLoop roots categories 1

/-- `estimate_combinations`: the per-style result dictionary, one entry
per template of the style. -/
def estimateCombinations (templates : List String) (roots : RootsMap) : List (String × Nat) :=
  templates.map (fun t => (t, estimateTemplate t roots))

/-!
Helper lemmas about the filter predicates.
-/

theorem list_any_congr {α : Type} (l : List α) (p q : α → Bool)
    (h : ∀ a ∈ l, p a = q a) : l.any p = l.any q := by
  induction l with
  | nil => rfl
  | cons x l ih =>
    simp only [List.any_cons]
    rw [h x (by simp), ih (fun a ha => h a (by simp [ha]))]

theorem conflictViolated_iff (tags : List String) (p : List String) :
    conflictViolated tags p = true ↔
      ∃ a b rest, p = a :: b :: rest ∧ a ∈ tags ∧ b ∈ tags := by
  match p with
  | [] => simp [conflictViolated]
  | [a] => simp [conflictViolated]
  | a :: b :: rest =>
    simp only [conflictViolated, Bool.and_eq_true, decide_eq_true_eq]
    constructor
    · rintro ⟨ha, hb⟩
      exact ⟨a, b, rest, rfl, ha, hb⟩
    · rintro ⟨a', b', rest', heq, ha', hb'⟩
      obtain ⟨rfl, rfl, rfl⟩ := by simpa using heq
      exact ⟨ha', hb'⟩

theorem adjacentDup_iff (cs : List Char) :
    adjacentDup cs = true ↔ ∃ a l1 l2, cs = l1 ++ a :: a :: l2 := by
  induction cs with
  | nil =>
    simp only [adjacentDup]
    constructor
    · intro h; exact absurd h (by simp)
    · rintro ⟨a, l1, l2, h⟩
      cases l1 <;> simp at h
  | cons c cs ih =>
    cases cs with
    | nil =>
      simp only [adjacentDup]
      constructor
      · intro h; exact absurd h (by simp)
      · rintro ⟨a, l1, l2, h⟩
        cases l1 with
        | nil => simp at h
        | cons x l1 =>
          simp only [List.cons_append, List.cons.injEq] at h
          obtain ⟨-, h⟩ := h
          cases l1 <;> simp at h
    | cons c2 cs2 =>
      simp only [adjacentDup, Bool.or_eq_true, beq_iff_eq, ih]
      constructor
      · rintro (rfl | ⟨a, l1, l2, h⟩)
        · exact ⟨c, [], cs2, rfl⟩
        · exact ⟨a, c :: l1, l2, by rw [List.cons_append, h]⟩
      · rintro ⟨a, l1, l2, h⟩
        cases l1 with
        | nil =>
          simp only [List.nil_append, List.cons.injEq] at h
          obtain ⟨rfl, rfl, -⟩ := h
          exact Or.inl rfl
        | cons x l1 =>
          simp only [List.cons_append, List.cons.injEq] at h
          exact Or.inr ⟨a, l1, l2, h.2⟩

/-- C4: the single-candidate compatibility check returns false iff some
rule's both members are present in the tag set, it returns true whenever
the rule list is empty, and the pair entry point
`check_tag_compatibility(tagsA, tagsB)` agrees with the single-candidate
check applied to any list with the membership of the union of the two tag
sets, under the same rules. -/
theorem claim_C4_tag_oracle (conflicts : List (List String)) :
    (∀ tags : List String,
      (checkTagCompatibilityInternal tags conflicts = false ↔
        ∃ p ∈ conflicts, ∃ a b rest, p = a :: b :: rest ∧ a ∈ tags ∧ b ∈ tags)) ∧
    (conflicts = [] → ∀ tags, checkTagCompatibilityInternal tags conflicts = true) ∧
    (∀ tags1 tags2 u : List String,
      (∀ t, t ∈ u ↔ t ∈ tags1 ∨ t ∈ tags2) →
      check_tag_compatibility tags1 tags2 conflicts = checkTagCompatibilityInternal u conflicts) := by
  refine ⟨?_, ?_, ?_⟩
  · intro tags
    cases tags with
    | nil =>
      simp only [checkTagCompatibilityInternal, List.isEmpty_nil, if_true]
      constructor
      · intro h; simp at h
      · rintro ⟨p, hp, a, b, rest, heq, ha, hb⟩
        simp at ha
    | cons t ts =>
      simp only [checkTagCompatibilityInternal, List.isEmpty_cons, Bool.false_eq_true, if_false]
      constructor
      · intro hfalse
        have hany : (conflicts.any (conflictViolated (t :: ts))) = true := by
          cases hc : conflicts.any (conflictViolated (t :: ts))
          · rw [hc] at hfalse; simp at hfalse
          · rfl
        obtain ⟨p, hp, hv⟩ := List.any_eq_true.mp hany
        exact ⟨p, hp, (conflictViolated_iff (t :: ts) p).mp hv⟩
      · rintro ⟨p, hp, hex⟩
        have hany : (conflicts.any (conflictViolated (t :: ts))) = true :=
          List.any_eq_true.mpr ⟨p, hp, (conflictViolated_iff (t :: ts) p).mpr hex⟩
        simp [hany]
  · rintro rfl tags
    simp [checkTagCompatibilityInternal]
  · intro tags1 tags2 u hu
    have hmem : ∀ t : String, (t ∈ u) ↔ (t ∈ tags1 ++ tags2) := by
      intro t; rw [hu t, List.mem_append]
    have hcv : ∀ p, conflictViolated u p = conflictViolated (tags1 ++ tags2) p := by
      intro p
      match p with
      | [] => rfl
      | [a] => rfl
      | a :: b :: rest =>
        simp only [conflictViolated]
        rw [decide_eq_decide.mpr (hmem a), decide_eq_decide.mpr (hmem b)]
    cases u with
    | nil =>
      have h1 : tags1 = [] := List.eq_nil_iff_forall_not_mem.mpr
        (fun a ha => by have := (hu a).mpr (Or.inl ha); simp at this)
      have h2 : tags2 = [] := List.eq_nil_iff_forall_not_mem.mpr
        (fun a ha => by have := (hu a).mpr (Or.inr ha); simp at this)
      subst h1; subst h2
      simp only [check_tag_compatibility, checkTagCompatibilityInternal, List.isEmpty_nil, if_true]
      have : ∀ p, conflictViolated ([] ++ ([] : List String)) p = false := by
        intro p; match p with
        | [] => rfl
        | [a] => rfl
        | a :: b :: rest => simp [conflictViolated]
      rw [list_any_congr conflicts _ (fun _ => false) (fun p _ => this p)]
      simp
    | cons x xs =>
      simp only [check_tag_compatibility, checkTagCompatibilityInternal, List.isEmpty_cons,
        Bool.false_eq_true, if_false]
      rw [list_any_congr conflicts _ _ (fun p _ => hcv p)]

/-- Witness for C4 at the spec's conflict example: the pair entry point on
the two singleton tag lists agrees with the single-candidate check on the
union, and both report the conflict. -/
theorem claim_C4_witness :
    check_tag_compatibility ["冷色调"] ["暖色调"] [["冷色调", "暖色调"]] =
      checkTagCompatibilityInternal ["冷色调", "暖色调"] [["冷色调", "暖色调"]] ∧
    checkTagCompatibilityInternal ["冷色调", "暖色调"] [["冷色调", "暖色调"]] = false := by
  have h := claim_C4_tag_oracle [["冷色调", "暖色调"]]
  refine ⟨h.2.2 ["冷色调"] ["暖色调"] ["冷色调", "暖色调"] ?_, ?_⟩
  · intro t; simp
  · exact (h.1 ["冷色调", "暖色调"]).mpr
      ⟨["冷色调", "暖色调"], by simp, "冷色调", "暖色调", [], rfl, by simp, by simp⟩

/-- C5: the tag stage fires only when the style's available-tag set is
non-empty and the candidate carries tags — in particular it never rejects
a tagless candidate — and when the available-tag set is empty a candidate
passing the length, adjacent-duplicate and forbidden-combination stages
survives filtering, whatever its tags. -/
theorem claim_C5_empty_available (sc : StyleConfig) (fc : StyleFilters) (tc : TagConfig)
    (cands : List (String × List String)) (cand : String × List String)
    (hav : tc.available = [])
    (hmem : cand ∈ cands)
    (hlen : lengthStageRejects sc cand.1 = false)
    (hdup : duplicateStageRejects fc cand.1 = false)
    (hforb : forbiddenStageRejects fc cand.1 = false) :
    hasTagSystem tc = false ∧ tagStageRejects tc cand = false ∧
      cand.1 ∈ applyFilters cands sc fc tc ∧
      (∀ (tc' : TagConfig) (name : String), tagStageRejects tc' (name, []) = false) := by
  have hts : hasTagSystem tc = false := by simp [hasTagSystem, hav]
  have htag : tagStageRejects tc cand = false := by simp [tagStageRejects, hts]
  refine ⟨hts, htag, ?_, fun tc' name => by simp [tagStageRejects]⟩
  have hp : passesFilters sc fc tc cand = true := by
    simp [passesFilters, hlen, hdup, hforb, htag]
  exact List.mem_map.mpr ⟨cand, List.mem_filter.mpr ⟨hmem, hp⟩, rfl⟩

/-- Witness for C5: a candidate whose tags contain both members of a
declared conflict pair still survives filtering because the style declares
no available tags. -/
theorem claim_C5_witness :
    hasTagSystem ⟨[], [["冷色调", "暖色调"]]⟩ = false ∧
    "云风" ∈ applyFilters [("云风", ["冷色调", "暖色调"])] ⟨2, 6⟩ ⟨true, []⟩
      ⟨[], [["冷色调", "暖色调"]]⟩ := by
  have h := claim_C5_empty_available ⟨2, 6⟩ ⟨true, []⟩ ⟨[], [["冷色调", "暖色调"]]⟩
    [("云风", ["冷色调", "暖色调"])] ("云风", ["冷色调", "暖色调"])
    rfl (by simp) (by decide) (by decide) (by decide)
  exact ⟨h.1, h.2.2.1⟩

/-- C6 counterexample: the claim quantifies over every style filter
configuration, but with `forbid_duplicate_chars = false` the
adjacent-duplicate stage does not reject a name that contains two
identical consecutive characters, and the candidate even survives the
whole chain. -/
theorem claim_C6_counterexample :
    duplicateStageRejects ⟨false, []⟩ "云云风" = false ∧
    (∃ a l1 l2, ("云云风" : String).data = l1 ++ a :: a :: l2) ∧
    "云云风" ∈ applyFilters [("云云风", [])] ⟨2, 6⟩ ⟨false, []⟩ ⟨[], []⟩ := by
  exact ⟨rfl, ⟨'云', [], ['风'], rfl⟩, by decide⟩

/-- C6 as amended: when `forbid_duplicate_chars` is enabled (the default),
the adjacent-duplicate stage rejects a candidate iff its name contains two
identical consecutive characters; when the flag is disabled the stage
rejects nothing. -/
theorem claim_C6_duplicate_stage (fc : StyleFilters) (name : String) :
    (fc.forbid_duplicate_chars = true →
      (duplicateStageRejects fc name = true ↔
        ∃ a l1 l2, name.data = l1 ++ a :: a :: l2)) ∧
    (fc.forbid_duplicate_chars = false → duplicateStageRejects fc name = false) := by
  constructor
  · intro h
    simp only [duplicateStageRejects, h, Bool.true_and, hasDuplicateChars]
    exact adjacentDup_iff name.data
  · intro h
    simp [duplicateStageRejects, h]

/-- Witness for the amended C6 at the spec's two examples. -/
theorem claim_C6_witness :
    duplicateStageRejects ⟨true, []⟩ "云云风" = true ∧
    duplicateStageRejects ⟨true, []⟩ "云风云" = false := by
  constructor
  · exact ((claim_C6_duplicate_stage ⟨true, []⟩ "云云风").1 rfl).mpr ⟨'云', [], ['风'], rfl⟩
  · decide

/-- C7: the length stage's bounds are inclusive and measured in code
points (`String.length`, the model of Python `len`): a name of exactly
`length_min` or `length_max` characters passes whenever the two bounds
form a (non-empty) interval, and a name of `length_min - 1` or
`length_max + 1` characters always fails. -/
theorem claim_C7_length_bounds (sc : StyleConfig) (name : String) :
    (sc.length_min ≤ sc.length_max →
      ((name.length : Int) = sc.length_min ∨ (name.length : Int) = sc.length_max) →
      lengthStageRejects sc name = false) ∧
    (((name.length : Int) = sc.length_min - 1 ∨ (name.length : Int) = sc.length_max + 1) →
      lengthStageRejects sc name = true) := by
  constructor
  · intro hmm hor
    have h1 : sc.length_min ≤ (name.length : Int) := by rcases hor with h | h <;> omega
    have h2 : (name.length : Int) ≤ sc.length_max := by rcases hor with h | h <;> omega
    simp [lengthStageRejects, h1, h2]
  · intro hor
    rcases hor with h | h
    · have hna : ¬(sc.length_min ≤ (name.length : Int)) := by omega
      simp [lengthStageRejects, hna]
    · have hnb : ¬((name.length : Int) ≤ sc.length_max) := by omega
      simp [lengthStageRejects, hnb]

/-- Witness for C7: with bounds 2..6, the two-character name passes
(its UTF-8 byte count is 6, so a byte-based measure would sit at the
boundary, while the code-point count 2 is what the stage uses), and a
seven-character name fails. -/
theorem claim_C7_witness :
    lengthStageRejects ⟨2, 6⟩ "云风" = false ∧
    lengthStageRejects ⟨2, 6⟩ "云风云月风月云" = true := by
  constructor
  · exact (claim_C7_length_bounds ⟨2, 6⟩ "云风").1 (by decide) (Or.inl (by decide))
  · exact (claim_C7_length_bounds ⟨2, 6⟩ "云风云月风月云").2 (Or.inr (by decide))

/-!
Claims about the sampler/deduplicator and the top-level control flow.
-/

theorem remainingAfterExclude_nodup (names exclude : List String) :
    (remainingAfterExclude names exclude).Nodup := by
  unfold remainingAfterExclude
  split
  · exact List.nodup_dedup names
  · exact List.Nodup.filter _ (List.nodup_dedup names)

theorem mem_remainingAfterExclude (names exclude : List String) (x : String) :
    x ∈ remainingAfterExclude names exclude ↔ (x ∈ names ∧ x ∉ exclude) := by
  unfold remainingAfterExclude
  split
  · rename_i h
    have hnil : exclude = [] := List.isEmpty_iff.mp h
    subst hnil
    simp [List.mem_dedup]
  · rw [List.mem_filter, List.mem_dedup]
    simp

theorem finalize_ok (pick : List String → Nat → List String)
    (names exclude : List String) (count : Nat) :
    ∃ result, finalize pick names exclude count = Except.ok result := by
  simp only [finalize, pySample]
  split
  · exact ⟨_, rfl⟩
  · split
    · exact ⟨_, rfl⟩
    · rename_i h1 h2
      omega

/-- C3: the final stage of `generate` (deduplication, exclusion, sampling)
returns exactly `min` of the surviving distinct-name count and `count`
pairwise-distinct names, each drawn from the input list and none from the
exclusion set.  The injected `pick` models `random.sample`: whenever a
draw is needed it selects `count` distinct positions of the population. -/
theorem claim_C3_finalize_bound (pick : List String → Nat → List String)
    (names exclude : List String) (count : Nat)
    (hpick : count < (remainingAfterExclude names exclude).length →
      ∃ idx : List (Fin (remainingAfterExclude names exclude).length),
        idx.Nodup ∧ idx.length = count ∧
        pick (remainingAfterExclude names exclude) count =
          idx.map (remainingAfterExclude names exclude).get) :
    ∃ result : List String,
      finalize pick names exclude count = Except.ok result ∧
      result.length = min (remainingAfterExclude names exclude).length count ∧
      result.Nodup ∧
      (∀ x ∈ result, x ∈ names ∧ x ∉ exclude) ∧
      (remainingAfterExclude names exclude).Nodup ∧
      (∀ x, x ∈ remainingAfterExclude names exclude ↔ (x ∈ names ∧ x ∉ exclude)) := by
  have hdup := remainingAfterExclude_nodup names exclude
  have hmem := mem_remainingAfterExclude names exclude
  by_cases hle : (remainingAfterExclude names exclude).length ≤ count
  · refine ⟨remainingAfterExclude names exclude, ?_, ?_, hdup, fun x hx => (hmem x).mp hx,
      hdup, hmem⟩
    · simp only [finalize]
      rw [if_pos hle]
    · rw [Nat.min_eq_left hle]
  · have hlt : count < (remainingAfterExclude names exclude).length := Nat.lt_of_not_le hle
    obtain ⟨idx, hidxdup, hidxlen, hpickeq⟩ := hpick hlt
    refine ⟨pick (remainingAfterExclude names exclude) count, ?_, ?_, ?_, ?_, hdup, hmem⟩
    · simp only [finalize, pySample]
      rw [if_neg hle, if_pos (Nat.le_of_lt hlt)]
    · rw [hpickeq, List.length_map, hidxlen, Nat.min_eq_right (Nat.le_of_lt hlt)]
    · rw [hpickeq]
      exact List.Nodup.map (List.nodup_iff_injective_get.mp hdup) hidxdup
    · intro x hx
      rw [hpickeq] at hx
      obtain ⟨i, -, rfl⟩ := List.mem_map.mp hx
      exact (hmem _).mp (List.get_mem _ i.1 i.2)

/-- Witness for C3 at the spec's dedup-and-exclusion example: candidates
containing a repeated name and an excluded name, with a requested count
larger than the supply. -/
theorem claim_C3_witness :
    ∃ result : List String,
      finalize (fun l k => l.take k) ["云风", "云风", "月光"] ["月光"] 5 = Except.ok result ∧
      result.length = min (remainingAfterExclude ["云风", "云风", "月光"] ["月光"]).length 5 ∧
      result.Nodup ∧
      (∀ x ∈ result, x ∈ ["云风", "云风", "月光"] ∧ x ∉ ["月光"]) ∧
      (remainingAfterExclude ["云风", "云风", "月光"] ["月光"]).Nodup ∧
      (∀ x, x ∈ remainingAfterExclude ["云风", "云风", "月光"] ["月光"] ↔
        (x ∈ ["云风", "云风", "月光"] ∧ x ∉ ["月光"])) :=
  claim_C3_finalize_bound (fun l k => l.take k) ["云风", "云风", "月光"] ["月光"] 5
    (by intro h; exact absurd h (by decide))

/-- C8: the public entry point terminates and returns a list for every
input: the only raise point in the pipeline is the `random.sample`
precondition inside `pySample`, and the supply guard in `finalize` makes
it unreachable, so empty template expansion and insufficient supply yield
an ordinary (possibly empty) list. -/
theorem claim_C8_generate_total (pick : List String → Nat → List String)
    (templates : List String) (roots : RootsMap) (sc : StyleConfig)
    (fc : StyleFilters) (tc : TagConfig) (count : Nat) (existing : List String) :
    ∃ result : List String,
      generate pick templates roots sc fc tc count existing = Except.ok result := by
  unfold generate
  split
  · exact ⟨[], rfl⟩
  · exact finalize_ok pick _ existing count

/-- C9: `_get_templates` always returns a non-empty list (substituting the
default two-placeholder template), so `generate` on its output never takes
the empty-template early return and runs the main pipeline. -/
theorem claim_C9_default_template (configured : List String) :
    getTemplates configured ≠ [] ∧
    ∀ (pick : List String → Nat → List String) (roots : RootsMap) (sc : StyleConfig)
      (fc : StyleFilters) (tc : TagConfig) (count : Nat) (existing : List String),
      generate pick (getTemplates configured) roots sc fc tc count existing =
        generateCore pick (getTemplates configured) roots sc fc tc count existing := by
  have hne : (getTemplates configured).isEmpty = false := by
    unfold getTemplates
    split
    · rfl
    · rename_i h
      cases hc : configured.isEmpty
      · rfl
      · exact absurd hc h
  constructor
  · exact List.isEmpty_eq_false.mp hne
  · intro pick roots sc fc tc count existing
    unfold generate
    rw [hne]
    simp

/-!
Claims about the template engine.
-/

theorem constraintFor_mem (ms : List (String × Option String)) (c t : String)
    (h : constraintFor ms c = some t) : (c, some t) ∈ ms := by
  induction ms with
  | nil => simp [constraintFor] at h
  | cons m ms ih =>
    rw [constraintFor] at h
    cases hrec : constraintFor ms c with
    | some t' =>
      rw [hrec] at h
      simp only [Option.some.injEq] at h
      subst h
      exact List.mem_cons_of_mem m (ih hrec)
    | none =>
      rw [hrec] at h
      cases hm2 : m.2 with
      | some t'' =>
        rw [hm2] at h
        simp only [] at h
        split at h
        · rename_i heq
          simp only [Option.some.injEq] at h
          rw [h] at hm2
          have hm : m = (c, some t) := Prod.ext_iff.mpr ⟨heq, hm2⟩
          rw [← hm]
          exact List.mem_cons_self m ms
        · simp at h
      | none =>
        rw [hm2] at h
        simp at h

theorem constraintFor_none (ms : List (String × Option String))
    (h : ∀ m ∈ ms, m.2 = none) (c : String) : constraintFor ms c = none := by
  induction ms with
  | nil => rfl
  | cons m ms ih =>
    rw [constraintFor, ih (fun x hx => h x (List.mem_cons_of_mem m hx)),
      h m (List.mem_cons_self m ms)]

/-- C2 counterexample: the claim as stated quantifies over every
placeholder with a tag constraint, but the source collects constraints
into a per-category dictionary where a later constraint overwrites an
earlier one for the same category.  In this template the first placeholder
carries constraint `t1`, no root of category `A` contains `t1`, yet the
expansion is non-empty (only the last constraint `t2` is ever applied). -/
theorem claim_C2_counterexample :
    findPlaceholders "\x7bA:t1\x7d\x7bA:t2\x7d" = [("A", some "t1"), ("A", some "t2")] ∧
    (∀ r ∈ (List.lookup "A" ([("A", [⟨"w", ["t2"]⟩])] : RootsMap)).getD [], "t1" ∉ r.tags) ∧
    applyTemplate "\x7bA:t1\x7d\x7bA:t2\x7d" [("A", [⟨"w", ["t2"]⟩])] =
      [("\x7bA:t1\x7dw", ["t2", "t2"])] := by
  exact ⟨by decide, by decide, by decide⟩

/-- C2 as amended: expansion fails closed per template: the result is the
empty list (with no partial expansion) whenever some referenced category
is absent from the roots mapping, or some category's effective tag
constraint — the last constraint recorded for that category, matching the
source's constraints dictionary — filters its root list to empty. -/
theorem claim_C2_fails_closed (template : String) (roots : RootsMap)
    (h : (∃ m ∈ findPlaceholders template, List.lookup m.1 roots = none) ∨
         (∃ c t, constraintFor (findPlaceholders template) c = some t ∧
           ((List.lookup c roots).getD []).filter (fun r => decide (t ∈ r.tags)) = [])) :
    applyTemplate template roots = [] := by
  show applyTemplateMatches template roots (findPlaceholders template) = []
  simp only [applyTemplateMatches]
  split
  · rename_i hempty
    have hnil : findPlaceholders template = [] := List.isEmpty_iff.mp hempty
    rw [hnil] at h
    rcases h with ⟨m, hm, -⟩ | ⟨c, t, hcf, -⟩
    · simp at hm
    · simp [constraintFor] at hcf
  · split
    · rfl
    · split
      · rfl
      · rename_i hg1 hg2
        rcases h with ⟨m, hm, hnone⟩ | ⟨c, t, hcf, hfil⟩
        · refine absurd (List.any_eq_true.mpr ⟨m.1, List.mem_map.mpr ⟨m, hm, rfl⟩, ?_⟩) hg1
          rw [hnone]
          rfl
        · refine absurd (List.any_eq_true.mpr ⟨c, ?_, ?_⟩) hg2
          · exact List.mem_map.mpr ⟨(c, some t), constraintFor_mem _ c t hcf, rfl⟩
          · rw [show filteredRootsFor roots (findPlaceholders template) c =
                ((List.lookup c roots).getD []).filter (fun r => decide (t ∈ r.tags)) from by
              unfold filteredRootsFor
              rw [hcf]]
            rw [hfil, hcf]
            rfl

/-- Witness for the amended C2: a template referencing an absent category
expands to nothing, and so does a template whose only constraint matches
no root. -/
theorem claim_C2_witness :
    applyTemplate "\x7bA\x7d\x7bB\x7d" ([("A", [⟨"云", []⟩])] : RootsMap) = [] ∧
    applyTemplate "\x7bA:t\x7d" ([("A", [⟨"云", []⟩])] : RootsMap) = [] := by
  constructor
  · exact claim_C2_fails_closed "\x7bA\x7d\x7bB\x7d" [("A", [⟨"云", []⟩])]
      (Or.inl ⟨("B", none), by decide, by decide⟩)
  · exact claim_C2_fails_closed "\x7bA:t\x7d" [("A", [⟨"云", []⟩])]
      (Or.inr ⟨"A", "t", by decide, by decide⟩)

theorem cartesianProduct_single {α : Type} (l : List α) :
    cartesianProduct [l] = l.map (fun y => [y]) := by
  show l.flatMap (fun y => (cartesianProduct []).map (fun combo => y :: combo)) = _
  induction l with
  | nil => rfl
  | cons y l ih => rw [List.flatMap_cons, ih, List.map_cons]; rfl

theorem cartesianProduct_pair {α : Type} (l1 l2 : List α) :
    cartesianProduct [l1, l2] = l1.flatMap (fun x => l2.map (fun y => [x, y])) := by
  show l1.flatMap (fun x => (cartesianProduct [l2]).map (fun combo => x :: combo)) = _
  rw [cartesianProduct_single]
  have hfun : (fun x => (l2.map (fun y => [y])).map (fun combo => x :: combo)) =
      (fun x : α => l2.map (fun y => [x, y])) := by
    funext x
    rw [List.map_map]
    rfl
  rw [hfun]

/-- C1: a template whose two placeholders reference two distinct
categories with no tag constraints, both present in the roots mapping with
`n1` and `n2` entries, expands to exactly `n1 * n2` candidates — one per
pair of chosen roots, in `itertools.product` order — and each candidate is
the template with the two placeholders substituted (`str.replace`) by the
chosen roots' words, carrying the concatenation of the chosen roots'
tags. -/
theorem claim_C1_cartesian_completeness (template : String) (roots : RootsMap)
    (c1 c2 : String) (l1 l2 : List WordRoot) (n1 n2 : Nat)
    (hps : findPlaceholders template = [(c1, none), (c2, none)])
    (_hcc : c1 ≠ c2)
    (h1 : List.lookup c1 roots = some l1)
    (h2 : List.lookup c2 roots = some l2)
    (hn1 : l1.length = n1) (hn2 : l2.length = n2) :
    applyTemplate template roots =
      l1.flatMap (fun r1 => l2.map (fun r2 =>
        (pyReplace (pyReplace template ("\x7b" ++ c1 ++ "\x7d") r1.word)
            ("\x7b" ++ c2 ++ "\x7d") r2.word,
          r1.tags ++ r2.tags))) ∧
    (applyTemplate template roots).length = n1 * n2 := by
  have hf1 : filteredRootsFor roots [(c1, none), (c2, none)] c1 = l1 := by
    show (List.lookup c1 roots).getD [] = l1
    rw [h1]
    rfl
  have hf2 : filteredRootsFor roots [(c1, none), (c2, none)] c2 = l2 := by
    show (List.lookup c2 roots).getD [] = l2
    rw [h2]
    rfl
  have key : applyTemplate template roots =
      l1.flatMap (fun r1 => l2.map (fun r2 =>
        (pyReplace (pyReplace template ("\x7b" ++ c1 ++ "\x7d") r1.word)
            ("\x7b" ++ c2 ++ "\x7d") r2.word,
          r1.tags ++ r2.tags))) := by
    show applyTemplateMatches template roots (findPlaceholders template) = _
    rw [hps]
    simp only [applyTemplateMatches, List.isEmpty_cons, Bool.false_eq_true, if_false,
      List.map_cons, List.map_nil, List.any_cons, List.any_nil, h1, h2]
    simp only [Option.isNone_some, Bool.false_or, Bool.or_false, Bool.false_eq_true, if_false,
      Option.isSome_none, Bool.false_and]
    rw [hf1, hf2, cartesianProduct_pair, List.map_flatMap]
    have hpt : ∀ x : WordRoot,
        List.map (fun combo =>
            (substituteCombo template [(c1, none), (c2, none)] ([c1, c2].zip combo),
              comboTags combo))
          (List.map (fun y => [x, y]) l2) =
        List.map (fun r2 =>
          (pyReplace (pyReplace template ("\x7b" ++ c1 ++ "\x7d") x.word)
              ("\x7b" ++ c2 ++ "\x7d") r2.word,
            x.tags ++ r2.tags)) l2 := by
      intro x
      rw [List.map_map]
      refine List.map_congr_left (fun y _ => ?_)
      show (substituteCombo template [(c1, none), (c2, none)] [(c1, x), (c2, y)],
        comboTags [x, y]) = _
      refine Prod.ext_iff.mpr ⟨rfl, ?_⟩
      show comboTags [x, y] = x.tags ++ y.tags
      simp [comboTags]
    exact congrArg (List.flatMap l1) (funext hpt)
  refine ⟨key, ?_⟩
  rw [key, flatMap_length_const l1 _ l2.length (fun x => by simp), hn1, hn2]

/-- Witness for C1: a two-by-one roots mapping expands to exactly two
candidates. -/
theorem claim_C1_witness :
    (applyTemplate "\x7bA\x7d\x7bB\x7d"
      ([("A", [⟨"云", []⟩, ⟨"月", []⟩]), ("B", [⟨"风", ["w"]⟩])] : RootsMap)).length = 2 * 1 :=
  (claim_C1_cartesian_completeness "\x7bA\x7d\x7bB\x7d"
    [("A", [⟨"云", []⟩, ⟨"月", []⟩]), ("B", [⟨"风", ["w"]⟩])] "A" "B"
    [⟨"云", []⟩, ⟨"月", []⟩] [⟨"风", ["w"]⟩] 2 1
    (by decide) (by decide) (by decide) (by decide) rfl rfl).2

/-!
Claim C10: the estimate agrees with the expansion size for
constraint-free templates.
-/

theorem estimateLoop_missing (roots : RootsMap) (cats : List String) (total : Nat)
    (h : ∃ c ∈ cats, List.lookup c roots = none) :
    estimateLoop roots cats total = 0 := by
  induction cats generalizing total with
  | nil =>
    obtain ⟨c, hc, -⟩ := h
    simp at hc
  | cons c cs ih =>
    have heq : estimateLoop roots (c :: cs) total =
        match List.lookup c roots with
        | some l => estimateLoop roots cs (total * l.length)
        | none => 0 := rfl
    rw [heq]
    cases hl : List.lookup c roots with
    | none => rfl
    | some l =>
      obtain ⟨c', hc', hnone⟩ := h
      rcases List.mem_cons.mp hc' with rfl | hmem
      · rw [hl] at hnone
        exact absurd hnone (by simp)
      · exact ih (total * l.length) ⟨c', hmem, hnone⟩

theorem estimateLoop_product (roots : RootsMap) (cats : List String) (total : Nat)
    (h : ∀ c ∈ cats, List.lookup c roots ≠ none) :
    estimateLoop roots cats total =
      total * (cats.map (fun c => ((List.lookup c roots).getD []).length)).prod := by
  induction cats generalizing total with
  | nil => simp [estimateLoop]
  | cons c cs ih =>
    have heq : estimateLoop roots (c :: cs) total =
        match List.lookup c roots with
        | some l => estimateLoop roots cs (total * l.length)
        | none => 0 := rfl
    rw [heq]
    cases hl : List.lookup c roots with
    | none => exact absurd hl (h c (List.mem_cons_self c cs))
    | some l =>
      show estimateLoop roots cs (total * l.length) = _
      rw [ih (total * l.length) (fun c' hc' => h c' (List.mem_cons_of_mem c hc'))]
      rw [List.map_cons, List.prod_cons, hl]
      simp only [Option.getD_some]
      ring

theorem applyTemplateMatches_length_estimate (template : String) (roots : RootsMap)
    (ps : List (String × Option String)) (h : ∀ m ∈ ps, m.2 = none) :
    (applyTemplateMatches template roots ps).length =
      (if (ps.map Prod.fst).isEmpty then 1 else estimateLoop roots (ps.map Prod.fst) 1) := by
  have hcf : ∀ c, constraintFor ps c = none := constraintFor_none ps h
  have hfr : ∀ c, filteredRootsFor roots ps c = (List.lookup c roots).getD [] := by
    intro c
    unfold filteredRootsFor
    rw [hcf c]
  by_cases hnil : ps = []
  · subst hnil
    simp [applyTemplateMatches]
  · have hne : ps.isEmpty = false := List.isEmpty_eq_false.mpr hnil
    have hcat : ((ps.map Prod.fst).isEmpty) = false := by
      cases ps with
      | nil => exact absurd rfl hnil
      | cons m ms' => rfl
    simp only [applyTemplateMatches, hne, hcat, Bool.false_eq_true, if_false]
    have hany2 : ((ps.map Prod.fst).any fun c =>
        (constraintFor ps c).isSome && (filteredRootsFor roots ps c).isEmpty) = false :=
      List.any_eq_false.mpr (fun c _ => by rw [hcf c]; simp)
    by_cases hmiss : ∃ c ∈ ps.map Prod.fst, List.lookup c roots = none
    · obtain ⟨c, hc, hnone⟩ := hmiss
      have hany1 : ((ps.map Prod.fst).any fun c => (List.lookup c roots).isNone) = true :=
        List.any_eq_true.mpr ⟨c, hc, by rw [hnone]; rfl⟩
      rw [hany1]
      simp only [if_true, List.length_nil]
      exact (estimateLoop_missing roots _ 1 ⟨c, hc, hnone⟩).symm
    · have hpresent : ∀ c ∈ ps.map Prod.fst, List.lookup c roots ≠ none :=
        fun c hc hn => hmiss ⟨c, hc, hn⟩
      have hany1 : ((ps.map Prod.fst).any fun c => (List.lookup c roots).isNone) = false :=
        List.any_eq_false.mpr (fun c hc => by
          cases hl : List.lookup c roots with
          | none => exact absurd hl (hpresent c hc)
          | some l => simp)
      rw [hany1, hany2]
      simp only [Bool.false_eq_true, if_false]
      rw [List.length_map, cartesianProduct_length, List.map_map]
      rw [estimateLoop_product roots _ 1 hpresent, Nat.one_mul]
      congr 1
      exact List.map_congr_left (fun c _ => by
        show (filteredRootsFor roots ps c).length = _
        rw [hfr c])

/-- C10: for a template with no tag constraints, the count
`estimate_combinations` assigns to it equals the number of candidates
`_apply_template` returns: the product of the referenced category sizes
when all are present, zero when one is absent, and one for a
placeholder-free template. -/
theorem claim_C10_estimate_agreement (template : String) (roots : RootsMap)
    (h : ∀ m ∈ findPlaceholders template, m.2 = none) :
    (applyTemplate template roots).length = estimateTemplate template roots := by
  show (applyTemplateMatches template roots (findPlaceholders template)).length =
    (if ((findPlaceholders template).map Prod.fst).isEmpty then 1
      else estimateLoop roots ((findPlaceholders template).map Prod.fst) 1)
  exact applyTemplateMatches_length_estimate template roots (findPlaceholders template) h

/-- Witness for C10: a constraint-free two-placeholder template over a
mapping with one category absent: both sides are zero; the estimate is
also checked against the full `estimate_combinations` dictionary. -/
theorem claim_C10_witness :
    (applyTemplate "\x7bA\x7d\x7bB\x7d"
        ([("A", [⟨"云", []⟩, ⟨"月", []⟩])] : RootsMap)).length =
      estimateTemplate "\x7bA\x7d\x7bB\x7d" ([("A", [⟨"云", []⟩, ⟨"月", []⟩])] : RootsMap) ∧
    estimateCombinations ["\x7bA\x7d\x7bB\x7d"] ([("A", [⟨"云", []⟩, ⟨"月", []⟩])] : RootsMap) =
      [("\x7bA\x7d\x7bB\x7d", 0)] :=
  ⟨claim_C10_estimate_agreement "\x7bA\x7d\x7bB\x7d" [("A", [⟨"云", []⟩, ⟨"月", []⟩])]
    (by decide), by decide⟩
